import Mathlib

/-!
Verification development for the class-enhancement composition engine of
`aurelia-class-enhancements` (`src/index.js`).

The JavaScript source is shallowly embedded:
* JS runtime values are `JsV`; objects become `Obj`, a record of the three
  proxy-relevant access operations (`get`, the `in` test, and
  `getOwnPropertyDescriptor`).
* A method call returns a trace of observable events (who was invoked, with
  which arguments) together with a `COut`: a returned value (`plain` or a
  settled promise `prom`) or a synchronously thrown value.
* Promises are modelled by their settlement: a `prom t r` is a future whose
  settlement has produced the events `t` and the outcome `r`; `promThen`
  is the `.then` combinator with JS flattening and rejection propagation.
* The native-function heuristic (`isNativeFn`, a source-text regex) is
  modelled by a boolean classification attached to each function value
  (`Fn.native`): the engine only ever consumes the boolean outcome.
* Mutable JS arrays are modelled twice: as pure lists (for the functional
  claims) and, for the frame claim about mutation, by an explicit store
  `ArrStore` of arrays addressed by references.
-/

namespace AureliaEnhance

/-- JS values (the fragment the engine manipulates and passes around). -/
inductive JsV where
  | undefined
  | boolV (b : Bool)
  | num (n : Nat)
  | str (s : String)
  | ref (id : Nat)
deriving DecidableEq

instance : Inhabited JsV := ⟨JsV.undefined⟩

/-- An observable event: an invoked label together with the argument list it
received.  Events are emitted by the concrete methods a scenario plugs in;
the engine itself only concatenates them, so a trace equation fixes the
invocation order. -/
abbrev Ev := String × List JsV

/-- A trace of observable events, in chronological order. -/
abbrev Trace := List Ev

/-- The settlement of a promise: resolution with a value or rejection with a
thrown value. -/
inductive Settled where
  | res (v : JsV)
  | rej (e : JsV)
deriving DecidableEq

/-- A value returned from a call: a plain (non-thenable) value, or a promise
carrying the events and settlement of its asynchronous completion. -/
inductive RVal where
  | plain (v : JsV)
  | prom (t : Trace) (r : Settled)
deriving DecidableEq

/-- Outcome of a call: a returned value or a synchronously thrown value. -/
inductive COut where
  | ret (r : RVal)
  | thrown (e : JsV)
deriving DecidableEq

/-- A JS function value: the boolean outcome of the native-source heuristic
(`isNativeFn` in the source), plus the call behaviour. -/
structure Fn where
  native : Bool
  call : List JsV → Trace × COut

/-- A property value: `undefined`, a plain data value, an opaque class
reference (classes are only compared/returned, never inspected, by the
instance layer), or a function. -/
inductive Val where
  | undefined
  | data (v : JsV)
  | cls
  | method (f : Fn)

/-- A property descriptor, as returned by `Object.getOwnPropertyDescriptor`. -/
structure Desc where
  configurable : Bool
  enumerable : Bool
  value : Val

/-- A JS object, as the proxy traps observe it: its identity (the reference
passed when the object itself is an argument), property read (`obj[name]`,
prototype chain included), the `in` test, and own-descriptor lookup. -/
structure Obj where
  ident : JsV
  get : String → Val
  has : String → Bool
  gopd : String → Option Desc

/-- The test `typeof v === 'function'`. -/
def isFnVal : Val → Bool
  | .method _ => true
  | _ => false

/-- Model of `isNativeFn` of the source, consumed through its boolean outcome; a
non-function is never classified native. -/
def isNativeVal : Val → Bool
  | .method f => f.native
  | _ => false

/-- Calling a property value: a function runs; calling anything else throws a
`TypeError` (as `.bind`/invocation would in JS). -/
def callFn : Val → List JsV → Trace × COut
  | .method f, args => f.call args
  | _, _ => ([], .thrown (.str "TypeError"))

/-- Model of `name.replace(/^[a-z]/, (match) => match.toUpperCase())` — uppercase the
first character when it is an ASCII lowercase letter (source line 128). -/
def normalizedName (name : String) : String :=
  match name.data with
  | [] => name
  | c :: rest => if c.isLower then String.mk (c.toUpper :: rest) else name

/-- The lifecycle hook name: `enhanced` + `normalizedName name` + `Return` (source line 129). -/
def lcMethodName (name : String) : String :=
  "enhanced" ++ normalizedName name ++ "Return"

/-- Model of `p.then(cb)` for a promise with settlement events `t` and settlement `r`:
rejection propagates past the callback; a callback throw rejects; a returned
promise is flattened. -/
def promThen (t : Trace) (r : Settled) (cb : JsV → Trace × COut) : RVal :=
  match r with
  | .rej e => .prom t (.rej e)
  | .res v =>
    match cb v with
    | (t2, .thrown e) => .prom (t ++ t2) (.rej e)
    | (t2, .ret (.plain w)) => .prom (t ++ t2) (.res w)
    | (t2, .ret (.prom t3 r3)) => .prom (t ++ t2 ++ t3) r3

/-- Model of `composeMethod(target, enhancement, name, callTarget)` (source lines
125–150): call the enhancement's method; on a promise, chain the lifecycle
hook and the conditional target call after settlement; otherwise run them
synchronously.  The hook's own return value is discarded. -/
def composeMethod (target enhancement : Obj) (name : String) (callTarget : Bool) : Fn where
  native := false
  call := fun args =>
    match callFn (enhancement.get name) args with
    | (t1, .thrown e) => (t1, .thrown e)
    | (t1, .ret enhancedValue) =>
      let lcName := lcMethodName name
      let hasLCMethod := isFnVal (target.get lcName)
      match enhancedValue with
      | .prom tp rp =>
        (t1, .ret (promThen tp rp (fun value =>
          if hasLCMethod then
            match callFn (target.get lcName) [value, enhancement.ident] with
            | (th, .thrown e) => (th, .thrown e)
            | (th, .ret _) =>
              if callTarget then
                let r := callFn (target.get name) args
                (th ++ r.1, r.2)
              else
                (th, .ret (.plain value))
          else
            if callTarget then
              callFn (target.get name) args
            else
              ([], .ret (.plain value)))))
      | .plain v =>
        if hasLCMethod then
          match callFn (target.get lcName) [v, enhancement.ident] with
          | (th, .thrown e) => (t1 ++ th, .thrown e)
          | (th, .ret _) =>
            if callTarget then
              let r := callFn (target.get name) args
              (t1 ++ th ++ r.1, r.2)
            else
              (t1 ++ th, .ret (.plain v))
        else
          if callTarget then
            let r := callFn (target.get name) args
            (t1 ++ r.1, r.2)
          else
            (t1, .ret (.plain v))

/-- Model of `enhanceInstance(ProxyClass, target, enhancement)` (source lines
164–236): the merged instance view.  `get` special-cases `constructor`,
then lets a native base function win, then composes when the enhancement
defines a function, and otherwise falls through to the base value; `has`
is the disjunction; descriptor lookup prefers the enhancement's own
descriptor. -/
def enhanceInstance (ProxyClass : Val) (target enhancement : Obj) : Obj where
  ident := target.ident
  get := fun name =>
    if name = "constructor" then ProxyClass
    else
      let targetValue := target.get name
      let targetIsFn := isFnVal targetValue
      let enhancementValue := enhancement.get name
      let enhancementIsFn := isFnVal enhancementValue
      if targetIsFn && isNativeVal targetValue then targetValue
      else if enhancementIsFn then .method (composeMethod target enhancement name targetIsFn)
      else targetValue
  has := fun name => target.has name || enhancement.has name
  gopd := fun name =>
    match enhancement.gopd name with
    | some d => some d
    | none => target.gopd name

/-- Model of `Array.prototype.indexOf`: index of the first strict-equality match, `-1`
when absent. -/
def jsIndexOf {α : Type} [DecidableEq α] : List α → α → Int
  | [], _ => -1
  | a :: rest, x =>
    if a = x then 0
    else if jsIndexOf rest x = -1 then -1 else jsIndexOf rest x + 1

/-- JS array indexing `values[i]` where `i` may be `undefined` (a key missing
from the positions object) or out of range: both read as `undefined`. -/
def jsAt (values : List JsV) : Option Int → JsV
  | none => .undefined
  | some i => if i < 0 then .undefined else values.getD i.toNat .undefined

/-- The body of the `enhancement.forEach` loop of `getInjectData` (source
lines 78–86), acting on the pair of the growing `list` and the
`enhancementPositions` object (a token → index map, last write wins). -/
def injectStep {α : Type} [DecidableEq α] (st : List α × (α → Option Int)) (dep : α) :
    List α × (α → Option Int) :=
  let targetIndex := jsIndexOf st.1 dep
  if targetIndex > -1 then
    (st.1, fun t => if t = dep then some targetIndex else st.2 t)
  else
    (st.1 ++ [dep], fun t => if t = dep then some (st.1.length : Int) else st.2 t)

/-- The record returned by `getInjectData`: the combined token list and the
two extraction closures. -/
structure InjectData (α : Type) where
  list : List α
  getForTarget : List JsV → List JsV
  getForEnhancement : List JsV → List JsV

/-- Model of `getInjectData(target = [], enhancement = [])` (source lines 75-108):
copy the target list, walk the enhancement tokens recording each one's
position (pushing the ones the target does not already request), and close
over the result: the base takes the `target.length`-prefix of the resolved
values, the enhancement reads the value at each of its tokens' recorded
positions. -/
def getInjectData {α : Type} [DecidableEq α] (target enhancement : List α) : InjectData α :=
  let st := enhancement.foldl injectStep (target, fun _ => none)
  { list := st.1
    getForTarget := fun values => values.take target.length
    getForEnhancement := fun values => enhancement.map (fun dep => jsAt values (st.2 dep)) }

/-- The list component of the merge on its own (the same loop, positions
dropped); proved below to coincide with `(getInjectData ..).list`. -/
def mergeList {α : Type} [DecidableEq α] (target enhancement : List α) : List α :=
  enhancement.foldl (fun l dep => if jsIndexOf l dep > -1 then l else l ++ [dep]) target

/-- A static property value of a class: `undefined`, a dependency-token
list (the `inject` convention), or some other value. -/
inductive SVal (α : Type) where
  | undefined
  | tokens (l : List α)
  | other (v : JsV)
deriving DecidableEq

/-- A static property descriptor. -/
structure SDesc (α : Type) where
  configurable : Bool
  enumerable : Bool
  value : SVal α
deriving DecidableEq

/-- A class, as the class-level proxy observes it: static property read,
static own-descriptor lookup, and construction (argument list to instance).
A constructed instance's `ident` is the reference under which it is passed
as a further constructor argument. -/
structure JsClass (α : Type) where
  sget : String → SVal α
  sgopd : String → Option (SDesc α)
  construct : List JsV → Obj

/-- Reading a class's `inject` list for the merge: an absent (`undefined`)
property hits `getInjectData`'s default parameter `[]`; a non-list static
value is outside the well-formed classes the engine is used with and is
likewise read as the empty list. -/
def injectTokens {α : Type} : SVal α → List α
  | .tokens l => l
  | _ => []

/-- Model of `proxyClass(Target, Enhancement)` (source lines 248-302): merge the two
`inject` lists once; `construct` builds the base from its prefix of the
arguments, then the enhancement from the base instance followed by its
extracted values, and wraps both in `enhanceInstance`; the static `get`
trap serves the merged list for `inject` and otherwise falls through to the
base class; the static descriptor trap serves a configurable enumerable
data descriptor for `inject` and otherwise the base's descriptor. -/
def proxyClass {α : Type} [DecidableEq α] (Target Enhancement : JsClass α) : JsClass α :=
  let injectData := getInjectData (injectTokens (Target.sget "inject"))
    (injectTokens (Enhancement.sget "inject"))
  { construct := fun args =>
      let targetInstance := Target.construct (injectData.getForTarget args)
      let enhancementInstance :=
        Enhancement.construct (targetInstance.ident :: injectData.getForEnhancement args)
      enhanceInstance Val.cls targetInstance enhancementInstance
    sget := fun name => if name = "inject" then .tokens injectData.list else Target.sget name
    sgopd := fun name =>
      if name = "inject" then
        some { configurable := true, enumerable := true, value := .tokens injectData.list }
      else Target.sgopd name }

/-- Model of `enhance(...enhancements)(Target)` (source lines 323-324): a left fold of
pairwise composition over the enhancement list. -/
def enhance {α : Type} [DecidableEq α] (enhancements : List (JsClass α)) (Target : JsClass α) :
    JsClass α :=
  enhancements.foldl (fun Current Enhancement => proxyClass Current Enhancement) Target

/-! ### Store model of the merge

For the frame claim about mutation, JS arrays are modelled explicitly: a
store maps references (indices) to array contents, `slice` allocates, and
`push` mutates in place. -/

/-- A heap of arrays: reference `r` holds `arrs[r]`. -/
structure ArrStore (α : Type) where
  arrs : List (List α)

/-- Reading the array behind a reference. -/
def readArr {α : Type} (s : ArrStore α) (r : Nat) : List α := s.arrs.getD r []

/-- Allocating a fresh array (e.g. the result of `slice` or `map`): the new
reference together with the grown store. -/
def allocArr {α : Type} (s : ArrStore α) (l : List α) : ArrStore α × Nat :=
  (⟨s.arrs ++ [l]⟩, s.arrs.length)

/-- Model of `arr.push(x)`: in-place mutation of the array behind `r`. -/
def pushArr {α : Type} (s : ArrStore α) (r : Nat) (x : α) : ArrStore α :=
  ⟨s.arrs.set r (readArr s r ++ [x])⟩

/-- The `forEach` body of `getInjectData`, on the store: test membership in
the live combined array, pushing onto it when absent. -/
def injectStepStore {α : Type} [DecidableEq α] (listRef : Nat) (st : ArrStore α) (dep : α) :
    ArrStore α :=
  if jsIndexOf (readArr st listRef) dep > -1 then st else pushArr st listRef dep

/-- Model of `getInjectData` on the store (positions object aside, which is not an
array): `list = target.slice()` allocates a copy, then the enhancement
tokens are walked, pushing the new ones onto the copy.  The loop never
touches the enhancement array, so its contents are read once up front. -/
def getInjectDataStore {α : Type} [DecidableEq α] (s : ArrStore α)
    (targetRef enhancementRef : Nat) : ArrStore α × Nat :=
  let a := allocArr s (readArr s targetRef)
  ((readArr s enhancementRef).foldl (injectStepStore a.2) a.1, a.2)

/-- Model of `getForTarget` on the store: `values.slice(0, target.length)` allocates
the prefix copy, leaving the values array untouched. -/
def getForTargetStore (s : ArrStore JsV) (valuesRef : Nat) (targetLen : Nat) :
    ArrStore JsV × Nat :=
  allocArr s ((readArr s valuesRef).take targetLen)

/-- Model of `getForEnhancement` on the store: `enhancement.map(...)` allocates a
fresh result array from reads of the values array. -/
def getForEnhancementStore {α : Type} [DecidableEq α] (s : ArrStore JsV) (valuesRef : Nat)
    (enhancement : List α) (positions : α → Option Int) : ArrStore JsV × Nat :=
  allocArr s (enhancement.map (fun dep => jsAt (readArr s valuesRef) (positions dep)))

/-- The lifecycle result hook's contribution to a composed call, for a
resolved enhancement value `v`: either the base defines no callable hook
(and nothing happens), or it defines one and that hook, invoked with
`(v, enhancement instance)`, completes normally with events `tH` (its
return value `hv` being arbitrary, since the engine discards it). -/
def hookOutcome (target enh : Obj) (m : String) (v : JsV) (tH : Trace) : Prop :=
  (isFnVal (target.get (lcMethodName m)) = false ∧ tH = []) ∨
  (∃ h hv, target.get (lcMethodName m) = Val.method h ∧
    h.call [v, enh.ident] = (tH, COut.ret hv))

/-! ### Concrete objects and classes for witnesses -/

/-- A user-defined (non-native) function that records its invocation under
`label` and finishes with `out`. -/
def mkFnEv (label : String) (out : COut) : Fn :=
  ⟨false, fun args => ([(label, args)], out)⟩

/-- An object with no properties at all. -/
def emptyObj : Obj :=
  ⟨.ref 0, fun _ => .undefined, fun _ => false, fun _ => none⟩

/-- A base instance defining only the method `m` (result `1`), no hook. -/
def baseNoHook : Obj where
  ident := .ref 0
  get := fun n => if n == "m" then .method (mkFnEv "base.m" (.ret (.plain (.num 1)))) else .undefined
  has := fun n => n == "m"
  gopd := fun _ => none

/-- A base instance defining `m` and a normally-completing `enhancedMReturn`
hook (whose return value `99` the engine must discard). -/
def baseWithHook : Obj where
  ident := .ref 0
  get := fun n =>
    if n == "m" then .method (mkFnEv "base.m" (.ret (.plain (.num 1))))
    else if n == "enhancedMReturn" then .method (mkFnEv "hook" (.ret (.plain (.num 99))))
    else .undefined
  has := fun n => n == "m" || n == "enhancedMReturn"
  gopd := fun _ => none

/-- A base instance defining `m` and an `enhancedMReturn` hook that throws. -/
def baseHookThrows : Obj where
  ident := .ref 0
  get := fun n =>
    if n == "m" then .method (mkFnEv "base.m" (.ret (.plain (.num 1))))
    else if n == "enhancedMReturn" then .method (mkFnEv "hook" (.thrown (.str "boom")))
    else .undefined
  has := fun n => n == "m" || n == "enhancedMReturn"
  gopd := fun _ => none

/-- An enhancement instance whose `m` returns `7` synchronously. -/
def enhSync : Obj where
  ident := .ref 1
  get := fun n => if n == "m" then .method (mkFnEv "enh.m" (.ret (.plain (.num 7)))) else .undefined
  has := fun n => n == "m"
  gopd := fun _ => none

/-- An enhancement instance whose `m` returns a promise that resolves to `7`
after emitting an `enh.then` event. -/
def enhAsync : Obj where
  ident := .ref 1
  get := fun n =>
    if n == "m" then
      .method ⟨false, fun args => ([("enh.m", args)], .ret (.prom [("enh.then", args)] (.res (.num 7))))⟩
    else .undefined
  has := fun n => n == "m"
  gopd := fun _ => none

/-- A base whose `toStr` is classified platform-builtin by the guard. -/
def baseNative : Obj where
  ident := .ref 0
  get := fun n =>
    if n == "toStr" then .method ⟨true, fun args => ([("nat", args)], .ret (.plain (.str "[object]")))⟩
    else .undefined
  has := fun n => n == "toStr"
  gopd := fun _ => none

/-- An enhancement defining its own `toStr`, which must not shadow a
platform-builtin one. -/
def enhShadow : Obj where
  ident := .ref 1
  get := fun n => if n == "toStr" then .method (mkFnEv "enh.toStr" (.ret (.plain (.str "custom")))) else .undefined
  has := fun n => n == "toStr"
  gopd := fun _ => none

/-- An enhancement carrying only the non-callable data property `color`. -/
def enhColor : Obj where
  ident := .ref 1
  get := fun n => if n == "color" then .data (.num 5) else .undefined
  has := fun n => n == "color"
  gopd := fun n => if n == "color" then some ⟨true, true, .data (.num 5)⟩ else none

/-- A second enhancement instance for the chained-dispatch scenario. -/
def enhA8 : Obj where
  ident := .ref 2
  get := fun n => if n == "m" then .method (mkFnEv "enhA.m" (.ret (.plain (.num 21)))) else .undefined
  has := fun n => n == "m"
  gopd := fun _ => none

/-- A third enhancement instance for the chained-dispatch scenario. -/
def enhB8 : Obj where
  ident := .ref 3
  get := fun n => if n == "m" then .method (mkFnEv "enhB.m" (.ret (.plain (.num 22)))) else .undefined
  has := fun n => n == "m"
  gopd := fun _ => none

/-- A class with no static properties (in particular no `inject`). -/
def trivClass : JsClass String :=
  ⟨fun _ => .undefined, fun _ => none, fun _ => emptyObj⟩

/-- A class declaring `inject = ["X"]` plus an unrelated static `foo`. -/
def injClass : JsClass String where
  sget := fun n => if n == "inject" then .tokens ["X"] else if n == "foo" then .other (.num 5) else .undefined
  sgopd := fun n => if n == "inject" then some ⟨false, false, .tokens ["X"]⟩ else none
  construct := fun _ => emptyObj

/-- The base class of the end-to-end injection scenario:
`tokens = [A, C, E, F]`. -/
def scenBase : JsClass String where
  sget := fun n => if n == "inject" then .tokens ["A", "C", "E", "F"] else .undefined
  sgopd := fun _ => none
  construct := fun _ => emptyObj

/-- The enhancement class of the end-to-end injection scenario:
`tokens = [A, B, D, E]`. -/
def scenEnh : JsClass String where
  sget := fun n => if n == "inject" then .tokens ["A", "B", "D", "E"] else .undefined
  sgopd := fun _ => none
  construct := fun _ => emptyObj

/-! ### Helper lemmas on `jsIndexOf` and the merge fold -/

lemma jsIndexOf_ge {α : Type} [DecidableEq α] (l : List α) (x : α) : -1 ≤ jsIndexOf l x := by
  induction l with
  | nil => simp [jsIndexOf]
  | cons a rest ih =>
    simp only [jsIndexOf]
    split_ifs <;> omega

lemma jsIndexOf_pos_iff {α : Type} [DecidableEq α] (l : List α) (x : α) :
    -1 < jsIndexOf l x ↔ x ∈ l := by
  induction l with
  | nil => simp [jsIndexOf]
  | cons a rest ih =>
    simp only [jsIndexOf, List.mem_cons]
    split_ifs with h1 h2
    · simp [h1]
    · rw [h2] at ih
      have hx : x ∉ rest := fun hm => by have := ih.mpr hm; omega
      constructor
      · intro h; omega
      · rintro (rfl | hm)
        · exact absurd rfl h1
        · exact absurd hm hx
    · have hge := jsIndexOf_ge rest x
      have hmem : x ∈ rest := ih.mp (by omega)
      constructor
      · intro _; exact Or.inr hmem
      · intro _; omega

lemma mergeList_nil {α : Type} [DecidableEq α] (t : List α) : mergeList t [] = t := rfl

lemma mergeList_cons {α : Type} [DecidableEq α] (t : List α) (d : α) (e : List α) :
    mergeList t (d :: e) = mergeList (if jsIndexOf t d > -1 then t else t ++ [d]) e := rfl

lemma injectFold_fst {α : Type} [DecidableEq α] (e : List α) :
    ∀ (l : List α) (p : α → Option Int), (e.foldl injectStep (l, p)).1 = mergeList l e := by
  induction e with
  | nil => intro l p; rfl
  | cons d rest ih =>
    intro l p
    rw [List.foldl_cons, mergeList_cons]
    by_cases h : jsIndexOf l d > -1
    · rw [if_pos h]
      have : injectStep (l, p) d = (l, fun t => if t = d then some (jsIndexOf l d) else p t) := by
        simp [injectStep, h]
      rw [this]; exact ih l _
    · rw [if_neg h]
      have : injectStep (l, p) d =
          (l ++ [d], fun t => if t = d then some (l.length : Int) else p t) := by
        simp [injectStep, h]
      rw [this]; exact ih (l ++ [d]) _

lemma getInjectData_list {α : Type} [DecidableEq α] (target enhancement : List α) :
    (getInjectData target enhancement).list = mergeList target enhancement :=
  injectFold_fst enhancement target _

lemma mergeList_eq_append_filter {α : Type} [DecidableEq α] (e : List α) :
    e.Nodup → ∀ t : List α, mergeList t e = t ++ e.filter (fun d => decide (d ∉ t)) := by
  induction e with
  | nil => intro _ t; simp [mergeList]
  | cons d rest ih =>
    intro he t
    obtain ⟨hd, hrest⟩ := List.nodup_cons.mp he
    rw [mergeList_cons]
    by_cases hdt : d ∈ t
    · rw [if_pos ((jsIndexOf_pos_iff t d).mpr hdt), ih hrest t]
      have hstep : List.filter (fun x => decide (x ∉ t)) (d :: rest)
          = List.filter (fun x => decide (x ∉ t)) rest := by
        simp [List.filter_cons, hdt]
      rw [hstep]
    · rw [if_neg (fun h => hdt ((jsIndexOf_pos_iff t d).mp h)), ih hrest (t ++ [d])]
      have hfc : rest.filter (fun x => decide (x ∉ t ++ [d])) =
          rest.filter (fun x => decide (x ∉ t)) := by
        apply List.filter_congr
        intro x hx
        have hxd : x ≠ d := fun h => hd (h ▸ hx)
        simp [List.mem_append, hxd]
      have hstep : List.filter (fun x => decide (x ∉ t)) (d :: rest)
          = d :: List.filter (fun x => decide (x ∉ t)) rest := by
        simp [List.filter_cons, hdt]
      rw [hfc, hstep, List.append_assoc]
      rfl

/-- C2: with duplicate-free token lists, the combined list is the base list
followed by exactly the enhancement tokens the base does not already
request, in declaration order, and its length is the base's length plus the
number of such tokens.  (`getInjectData` is a pure function, so the result
is deterministic for the same inputs by construction.) -/
theorem merge_combined_spec {α : Type} [DecidableEq α] (base enh : List α)
    (_hb : base.Nodup) (he : enh.Nodup) :
    (getInjectData base enh).list = base ++ enh.filter (fun d => decide (d ∉ base)) ∧
    (getInjectData base enh).list.length =
      base.length + (enh.filter (fun d => decide (d ∉ base))).length := by
  have h := (getInjectData_list base enh).trans (mergeList_eq_append_filter enh he base)
  exact ⟨h, by rw [h, List.length_append]⟩

/-- Witness for C2 at concrete lists `[0, 1]` and `[1, 2]`. -/
theorem merge_combined_spec_witness :
    (getInjectData [0, 1] [1, 2]).list = [0, 1, 2] ∧
    (getInjectData [0, 1] [1, 2]).list.length = 3 := by
  have h := merge_combined_spec [0, 1] [1, 2] (by decide) (by decide)
  constructor
  · rw [h.1]; rfl
  · rw [h.2]; rfl

/-- C3: with `Base.tokens = [A, C, E, F]` and `Enhancement.tokens =
[A, B, D, E]`, the combined list is `[A, C, E, F, B, D]`, and constructing
the composed type with `[a, c, e, f, b, d]` constructs the base with the
base-length prefix `(a, c, e, f)` and the enhancement with the base
instance followed by `(a, b, d, e)` — the shared tokens `A` and `E`
resolving to the same values for both sides. -/
theorem construct_split_spec (Base Enh : JsClass String) (a c e f b d : JsV)
    (hB : Base.sget "inject" = .tokens ["A", "C", "E", "F"])
    (hE : Enh.sget "inject" = .tokens ["A", "B", "D", "E"]) :
    (proxyClass Base Enh).sget "inject" = .tokens ["A", "C", "E", "F", "B", "D"] ∧
    (proxyClass Base Enh).construct [a, c, e, f, b, d] =
      enhanceInstance Val.cls (Base.construct [a, c, e, f])
        (Enh.construct ((Base.construct [a, c, e, f]).ident :: [a, b, d, e])) := by
  refine ⟨?_, ?_⟩ <;> simp only [proxyClass, injectTokens, hB, hE] <;> rfl

/-- Witness for C3 at the resolved values `1, 2, 3, 4, 5, 6`. -/
theorem construct_split_spec_witness :
    (proxyClass scenBase scenEnh).sget "inject" = .tokens ["A", "C", "E", "F", "B", "D"] ∧
    (proxyClass scenBase scenEnh).construct
        [.num 1, .num 2, .num 3, .num 4, .num 5, .num 6] =
      enhanceInstance Val.cls (scenBase.construct [.num 1, .num 2, .num 3, .num 4])
        (scenEnh.construct ((scenBase.construct [.num 1, .num 2, .num 3, .num 4]).ident ::
          [.num 1, .num 5, .num 6, .num 3])) :=
  construct_split_spec scenBase scenEnh (.num 1) (.num 2) (.num 3) (.num 4) (.num 5) (.num 6)
    rfl rfl

/-- C6: a base property classified platform-builtin by the native-call guard
is returned unchanged by the composed instance's read trap, even when the
enhancement defines a same-named callable. -/
theorem native_guard_spec (pcls : Val) (target enh : Obj) (name : String) (f : Fn)
    (hn : name ≠ "constructor") (hf : target.get name = .method f) (hnat : f.native = true) :
    (enhanceInstance pcls target enh).get name = .method f := by
  simp [enhanceInstance, hn, hf, isFnVal, isNativeVal, hnat]

/-- Witness for C6: the native `toStr` of `baseNative` survives the
composition with `enhShadow`, which defines its own `toStr`. -/
theorem native_guard_spec_witness :
    (enhanceInstance Val.cls baseNative enhShadow).get "toStr" =
      .method ⟨true, fun args => ([("nat", args)], .ret (.plain (.str "[object]")))⟩ :=
  native_guard_spec Val.cls baseNative enhShadow "toStr"
    ⟨true, fun args => ([("nat", args)], .ret (.plain (.str "[object]")))⟩
    (by decide) rfl rfl

/-- C7: on a composed type, reading the static `inject` returns the merged
combined list, descriptor lookup for `inject` yields a configurable,
enumerable data property holding that list (whether or not the base
declared one), and every other static read or descriptor lookup reflects
the base type, never the enhancement type. -/
theorem static_inject_spec {α : Type} [DecidableEq α] (T E : JsClass α) (name : String)
    (hn : name ≠ "inject") :
    (proxyClass T E).sget "inject" =
      .tokens (getInjectData (injectTokens (T.sget "inject"))
        (injectTokens (E.sget "inject"))).list ∧
    (proxyClass T E).sgopd "inject" =
      some ⟨true, true, .tokens (getInjectData (injectTokens (T.sget "inject"))
        (injectTokens (E.sget "inject"))).list⟩ ∧
    (proxyClass T E).sget name = T.sget name ∧
    (proxyClass T E).sgopd name = T.sgopd name := by
  refine ⟨?_, ?_, ?_, ?_⟩ <;> simp [proxyClass, hn]

/-- Witness for C7: the base `trivClass` has no static `inject` at all, yet
the composed type exposes the merged list `["X"]` through both reads and
descriptors; the unrelated static `foo` reads as the base's `undefined`,
not the enhancement's `5`. -/
theorem static_inject_spec_witness :
    (proxyClass trivClass injClass).sget "inject" = .tokens ["X"] ∧
    (proxyClass trivClass injClass).sgopd "inject" = some ⟨true, true, .tokens ["X"]⟩ ∧
    (proxyClass trivClass injClass).sget "foo" = .undefined ∧
    (proxyClass trivClass injClass).sgopd "foo" = none := by
  have h := static_inject_spec trivClass injClass "foo" (by decide)
  refine ⟨?_, ?_, ?_, ?_⟩
  · rw [h.1]; rfl
  · rw [h.2.1]; rfl
  · rw [h.2.2.1]; rfl
  · rw [h.2.2.2]; rfl

/-- C9: for a name absent on the base instance but present on the
enhancement with a non-callable value, the composed traps disagree: the
read returns the base's `undefined`, while the `in` test answers true and
descriptor lookup returns the enhancement's descriptor. -/
theorem trap_mismatch_spec (pcls : Val) (target enh : Obj) (name : String) (d : Desc)
    (hn : name ≠ "constructor")
    (ht1 : target.get name = .undefined) (ht2 : target.has name = false)
    (_ht3 : target.gopd name = none)
    (he1 : isFnVal (enh.get name) = false) (he2 : enh.has name = true)
    (he3 : enh.gopd name = some d) :
    (enhanceInstance pcls target enh).get name = .undefined ∧
    (enhanceInstance pcls target enh).has name = true ∧
    (enhanceInstance pcls target enh).gopd name = some d := by
  refine ⟨?_, ?_, ?_⟩
  · cases hev : enh.get name with
    | method f => rw [hev] at he1; simp [isFnVal] at he1
    | undefined => simp [enhanceInstance, hn, ht1, hev, isFnVal]
    | data v => simp [enhanceInstance, hn, ht1, hev, isFnVal]
    | cls => simp [enhanceInstance, hn, ht1, hev, isFnVal]
  · simp [enhanceInstance, ht2, he2]
  · simp [enhanceInstance, he3]

/-- Witness for C9 at the data property `color` of `enhColor` over an empty
base. -/
theorem trap_mismatch_spec_witness :
    (enhanceInstance Val.cls emptyObj enhColor).get "color" = .undefined ∧
    (enhanceInstance Val.cls emptyObj enhColor).has "color" = true ∧
    (enhanceInstance Val.cls emptyObj enhColor).gopd "color" =
      some ⟨true, true, .data (.num 5)⟩ :=
  trap_mismatch_spec Val.cls emptyObj enhColor "color" ⟨true, true, .data (.num 5)⟩
    (by decide) rfl rfl rfl rfl rfl rfl

/-- C4: for a method name callable on both sides (base side not
platform-builtin), a composed call invokes the enhancement first with the
original arguments, then (after the result hook, when one is defined and
completes) the base with the same original arguments, and the caller gets
the base's outcome; when the enhancement returns a promise, the base runs
only inside that promise's settlement and the composed call's own promise
settles to the base's result. -/
theorem dispatch_order_spec (pcls : Val) (target enh : Obj) (m : String) (fT fE : Fn)
    (args : List JsV)
    (hm : m ≠ "constructor")
    (hT : target.get m = .method fT) (hTn : fT.native = false)
    (hE : enh.get m = .method fE) :
    (∀ tE v tH tT outT, fE.call args = (tE, .ret (.plain v)) →
      hookOutcome target enh m v tH → fT.call args = (tT, outT) →
      callFn ((enhanceInstance pcls target enh).get m) args = (tE ++ tH ++ tT, outT)) ∧
    (∀ tE tp v tH tT w, fE.call args = (tE, .ret (.prom tp (.res v))) →
      hookOutcome target enh m v tH → fT.call args = (tT, .ret (.plain w)) →
      callFn ((enhanceInstance pcls target enh).get m) args =
        (tE, .ret (.prom (tp ++ tH ++ tT) (.res w)))) := by
  have hgm : (enhanceInstance pcls target enh).get m =
      .method (composeMethod target enh m true) := by
    simp [enhanceInstance, hm, hT, hE, isFnVal, isNativeVal, hTn]
  constructor
  · intro tE v tH tT outT hce hhook hct
    rw [hgm]
    rcases hhook with ⟨hlc, rfl⟩ | ⟨h, hv, hlc, hhc⟩
    · simp [callFn, composeMethod, hE, hce, hlc, hT, hct]
    · simp [callFn, composeMethod, hE, hce, hlc, isFnVal, hhc, hT, hct, List.append_assoc]
  · intro tE tp v tH tT w hce hhook hct
    rw [hgm]
    rcases hhook with ⟨hlc, rfl⟩ | ⟨h, hv, hlc, hhc⟩
    · simp [callFn, composeMethod, promThen, hE, hce, hlc, hT, hct]
    · simp [callFn, composeMethod, promThen, hE, hce, hlc, isFnVal, hhc, hT, hct,
        List.append_assoc]

/-- Witness for C4: `baseNoHook` and `enhSync` over the method `m` — the
trace runs `enh.m` then `base.m` and the call returns the base's `1`. -/
theorem dispatch_order_spec_witness :
    callFn ((enhanceInstance Val.cls baseNoHook enhSync).get "m") [] =
      ([("enh.m", [])] ++ [] ++ [("base.m", [])], .ret (.plain (.num 1))) :=
  (dispatch_order_spec Val.cls baseNoHook enhSync "m"
      (mkFnEv "base.m" (.ret (.plain (.num 1)))) (mkFnEv "enh.m" (.ret (.plain (.num 7)))) []
      (by decide) rfl rfl rfl).1
    [("enh.m", [])] (.num 7) [] [("base.m", [])] (.ret (.plain (.num 1)))
    rfl (Or.inl ⟨rfl, rfl⟩) rfl

/-- C5: when the base defines a callable `enhanced<Capitalize(m)>Return`,
a composed call of `m` invokes that hook exactly once with the
enhancement's resolved value and the enhancement instance — after the
enhancement's result is resolved and before any base invocation — whether
or not the base defines `m` itself, on the synchronous and asynchronous
paths alike; the hook's own return value `hv` never reaches the result. -/
theorem hook_invocation_spec (pcls : Val) (target enh : Obj) (m : String) (fE h : Fn)
    (args : List JsV)
    (hm : m ≠ "constructor")
    (hnn : isNativeVal (target.get m) = false)
    (hE : enh.get m = .method fE)
    (hLC : target.get (lcMethodName m) = .method h) :
    (∀ fT tE v tH hv tT outT, target.get m = .method fT →
      fE.call args = (tE, .ret (.plain v)) → h.call [v, enh.ident] = (tH, .ret hv) →
      fT.call args = (tT, outT) →
      callFn ((enhanceInstance pcls target enh).get m) args = (tE ++ tH ++ tT, outT)) ∧
    (∀ tE v tH hv, isFnVal (target.get m) = false →
      fE.call args = (tE, .ret (.plain v)) → h.call [v, enh.ident] = (tH, .ret hv) →
      callFn ((enhanceInstance pcls target enh).get m) args = (tE ++ tH, .ret (.plain v))) ∧
    (∀ fT tE tp v tH hv tT w, target.get m = .method fT →
      fE.call args = (tE, .ret (.prom tp (.res v))) → h.call [v, enh.ident] = (tH, .ret hv) →
      fT.call args = (tT, .ret (.plain w)) →
      callFn ((enhanceInstance pcls target enh).get m) args =
        (tE, .ret (.prom (tp ++ tH ++ tT) (.res w)))) ∧
    (∀ tE tp v tH hv, isFnVal (target.get m) = false →
      fE.call args = (tE, .ret (.prom tp (.res v))) → h.call [v, enh.ident] = (tH, .ret hv) →
      callFn ((enhanceInstance pcls target enh).get m) args =
        (tE, .ret (.prom (tp ++ tH) (.res v)))) := by
  refine ⟨?_, ?_, ?_, ?_⟩
  · intro fT tE v tH hv tT outT hT hce hhc hct
    have hTn : fT.native = false := by rw [hT] at hnn; simpa [isNativeVal] using hnn
    have hgm : (enhanceInstance pcls target enh).get m =
        .method (composeMethod target enh m true) := by
      simp [enhanceInstance, hm, hT, hE, isFnVal, isNativeVal, hTn]
    rw [hgm]
    simp [callFn, composeMethod, hE, hce, hLC, isFnVal, hhc, hT, hct, List.append_assoc]
  · intro tE v tH hv hTf hce hhc
    have hgm : (enhanceInstance pcls target enh).get m =
        .method (composeMethod target enh m false) := by
      simp only [enhanceInstance]
      rw [if_neg hm, hTf, hE]
      simp [isFnVal]
    rw [hgm]
    simp [callFn, composeMethod, hE, hce, hLC, isFnVal, hhc]
  · intro fT tE tp v tH hv tT w hT hce hhc hct
    have hTn : fT.native = false := by rw [hT] at hnn; simpa [isNativeVal] using hnn
    have hgm : (enhanceInstance pcls target enh).get m =
        .method (composeMethod target enh m true) := by
      simp [enhanceInstance, hm, hT, hE, isFnVal, isNativeVal, hTn]
    rw [hgm]
    simp [callFn, composeMethod, promThen, hE, hce, hLC, isFnVal, hhc, hT, hct,
      List.append_assoc]
  · intro tE tp v tH hv hTf hce hhc
    have hgm : (enhanceInstance pcls target enh).get m =
        .method (composeMethod target enh m false) := by
      simp only [enhanceInstance]
      rw [if_neg hm, hTf, hE]
      simp [isFnVal]
    rw [hgm]
    simp [callFn, composeMethod, promThen, hE, hce, hLC, isFnVal, hhc]

/-- Witness for C5: `baseWithHook` (method plus hook returning `99`) and
`enhSync` — the hook fires once with `(7, enhancement)` between the
enhancement and base invocations, and its `99` is discarded. -/
theorem hook_invocation_spec_witness :
    callFn ((enhanceInstance Val.cls baseWithHook enhSync).get "m") [] =
      ([("enh.m", [])] ++ [("hook", [.num 7, .ref 1])] ++ [("base.m", [])],
        .ret (.plain (.num 1))) :=
  (hook_invocation_spec Val.cls baseWithHook enhSync "m"
      (mkFnEv "enh.m" (.ret (.plain (.num 7)))) (mkFnEv "hook" (.ret (.plain (.num 99)))) []
      (by decide) rfl rfl rfl).1
    (mkFnEv "base.m" (.ret (.plain (.num 1)))) [("enh.m", [])] (.num 7)
    [("hook", [.num 7, .ref 1])] (.plain (.num 99)) [("base.m", [])]
    (.ret (.plain (.num 1))) rfl rfl rfl rfl

/-- C1 counterexample: with a base whose `enhancedMReturn` hook throws
`boom`, a synchronous composed call of `m` (method on both sides, base
result `1`) does NOT deliver the primary result: the call throws the
hook's failure, the base method never runs (no `base.m` event in the
trace), and the caller never sees `1`. -/
theorem hook_failure_counterexample :
    callFn ((enhanceInstance Val.cls baseHookThrows enhSync).get "m") [] =
      ([("enh.m", []), ("hook", [.num 7, .ref 1])], .thrown (.str "boom")) ∧
    (callFn ((enhanceInstance Val.cls baseHookThrows enhSync).get "m") []).2 ≠
      .ret (.plain (.num 1)) := by
  constructor <;> decide

/-- C1 (amended): a failure raised by the result hook is not kept secondary
by the code — it replaces the primary result.  On the synchronous path the
composed call throws the hook's failure and the base method is never
invoked; on the asynchronous path the composed call's promise rejects with
the hook's failure and the base method is never invoked; either way the
primary result is discarded. -/
theorem hook_failure_propagates (pcls : Val) (target enh : Obj) (m : String) (fE h : Fn)
    (args : List JsV)
    (hm : m ≠ "constructor")
    (hnn : isNativeVal (target.get m) = false)
    (hE : enh.get m = .method fE)
    (hLC : target.get (lcMethodName m) = .method h) :
    (∀ tE v tH e, fE.call args = (tE, .ret (.plain v)) →
      h.call [v, enh.ident] = (tH, .thrown e) →
      callFn ((enhanceInstance pcls target enh).get m) args = (tE ++ tH, .thrown e)) ∧
    (∀ tE tp v tH e, fE.call args = (tE, .ret (.prom tp (.res v))) →
      h.call [v, enh.ident] = (tH, .thrown e) →
      callFn ((enhanceInstance pcls target enh).get m) args =
        (tE, .ret (.prom (tp ++ tH) (.rej e)))) := by
  have hgm : (enhanceInstance pcls target enh).get m =
      .method (composeMethod target enh m (isFnVal (target.get m))) := by
    simp only [enhanceInstance]
    rw [if_neg hm, hE]
    simp [isFnVal, hnn]
  constructor
  · intro tE v tH e hce hhc
    rw [hgm]
    simp [callFn, composeMethod, hE, hce, hLC, isFnVal, hhc]
  · intro tE tp v tH e hce hhc
    rw [hgm]
    simp [callFn, composeMethod, promThen, hE, hce, hLC, isFnVal, hhc]

/-- Witness for the amended C1, on both paths: with `baseHookThrows`, the
sync composed call throws `boom` (base never invoked), and the async one
returns a promise rejecting with `boom` (base never invoked). -/
theorem hook_failure_propagates_witness :
    callFn ((enhanceInstance Val.cls baseHookThrows enhSync).get "m") [] =
      ([("enh.m", [])] ++ [("hook", [.num 7, .ref 1])], .thrown (.str "boom")) ∧
    callFn ((enhanceInstance Val.cls baseHookThrows enhAsync).get "m") [] =
      ([("enh.m", [])], .ret (.prom ([("enh.then", [])] ++ [("hook", [.num 7, .ref 1])])
        (.rej (.str "boom")))) :=
  ⟨(hook_failure_propagates Val.cls baseHookThrows enhSync "m"
      (mkFnEv "enh.m" (.ret (.plain (.num 7)))) (mkFnEv "hook" (.thrown (.str "boom"))) []
      (by decide) rfl rfl rfl).1 [("enh.m", [])] (.num 7) [("hook", [.num 7, .ref 1])]
      (.str "boom") rfl rfl,
   (hook_failure_propagates Val.cls baseHookThrows enhAsync "m"
      ⟨false, fun args => ([("enh.m", args)], .ret (.prom [("enh.then", args)] (.res (.num 7))))⟩
      (mkFnEv "hook" (.thrown (.str "boom"))) []
      (by decide) rfl rfl rfl).2 [("enh.m", [])] [("enh.then", [])] (.num 7)
      [("hook", [.num 7, .ref 1])] (.str "boom") rfl rfl⟩

lemma lcMethodName_ne_constructor (m : String) : lcMethodName m ≠ "constructor" := by
  intro hcon
  have hlen := congrArg String.length hcon
  rw [lcMethodName, String.length_append, String.length_append] at hlen
  have h1 : ("enhanced" : String).length = 8 := rfl
  have h2 : ("Return" : String).length = 6 := rfl
  have h3 : ("constructor" : String).length = 11 := rfl
  rw [h1, h2, h3] at hlen
  omega

lemma composeMethod_native (target enh : Obj) (m : String) (ct : Bool) :
    (composeMethod target enh m ct).native = false := rfl

lemma enhanceInstance_get_method (pcls : Val) (target enh : Obj) (m : String)
    (hm : m ≠ "constructor") (f : Fn) (ht : target.get m = .method f) (hn : f.native = false)
    (g : Fn) (he : enh.get m = .method g) :
    (enhanceInstance pcls target enh).get m = .method (composeMethod target enh m true) := by
  simp [enhanceInstance, hm, ht, he, isFnVal, isNativeVal, hn]

lemma enhanceInstance_get_fallthrough (pcls : Val) (target enh : Obj) (m : String)
    (hm : m ≠ "constructor") (hTf : isFnVal (target.get m) = false)
    (hEf : isFnVal (enh.get m) = false) :
    (enhanceInstance pcls target enh).get m = target.get m := by
  simp only [enhanceInstance]
  rw [if_neg hm, hTf, hEf]
  simp

/-- C8: the variadic entry point is a left fold of pairwise composition, so
applying `(EnhA, EnhB)` equals manually nesting `compose(EnhB)` around
`compose(EnhA)(Base)` — the very same composed type — and on a doubly
composed instance a shared method name dispatches `EnhB` first, then
`EnhA`, then the base, the caller receiving the base's outcome. -/
theorem variadic_compose_spec {α : Type} [DecidableEq α] (Base EnhA EnhB : JsClass α)
    (c1 c2 : Val) (b ia ib : Obj) (m : String) (fT fA fB : Fn) (args : List JsV)
    (tA tB tT : Trace) (vA vB : JsV) (outT : COut)
    (hm : m ≠ "constructor")
    (hT : b.get m = .method fT) (hTn : fT.native = false)
    (hA : ia.get m = .method fA) (_hAn : fA.native = false)
    (hB : ib.get m = .method fB) (_hBn : fB.native = false)
    (hLCb : isFnVal (b.get (lcMethodName m)) = false)
    (hLCa : isFnVal (ia.get (lcMethodName m)) = false)
    (hcA : fA.call args = (tA, .ret (.plain vA)))
    (hcB : fB.call args = (tB, .ret (.plain vB)))
    (hcT : fT.call args = (tT, outT)) :
    enhance [EnhA, EnhB] Base = proxyClass (proxyClass Base EnhA) EnhB ∧
    enhance [EnhA, EnhB] Base = enhance [EnhB] (enhance [EnhA] Base) ∧
    callFn ((enhanceInstance c2 (enhanceInstance c1 b ia) ib).get m) args =
      (tB ++ (tA ++ tT), outT) := by
  refine ⟨rfl, rfl, ?_⟩
  have hinner_m : (enhanceInstance c1 b ia).get m = .method (composeMethod b ia m true) :=
    enhanceInstance_get_method c1 b ia m hm fT hT hTn fA hA
  have hinner_lc : isFnVal ((enhanceInstance c1 b ia).get (lcMethodName m)) = false := by
    rw [enhanceInstance_get_fallthrough c1 b ia (lcMethodName m)
      (lcMethodName_ne_constructor m) hLCb hLCa]
    exact hLCb
  have houter : (enhanceInstance c2 (enhanceInstance c1 b ia) ib).get m =
      .method (composeMethod (enhanceInstance c1 b ia) ib m true) :=
    enhanceInstance_get_method c2 (enhanceInstance c1 b ia) ib m hm
      (composeMethod b ia m true) hinner_m (composeMethod_native b ia m true) fB hB
  rw [houter]
  simp only [callFn]
  simp [composeMethod, hB, hcB, hinner_lc, hinner_m, hA, hcA, hLCb, hT, hcT, callFn]

/-- Witness for C8 with `baseNoHook`, `enhA8`, `enhB8` (and arbitrary
concrete classes for the type-level fold): the trace runs `enhB.m`,
`enhA.m`, `base.m` and the call returns the base's `1`. -/
theorem variadic_compose_spec_witness :
    enhance [injClass, injClass] trivClass =
      proxyClass (proxyClass trivClass injClass) injClass ∧
    enhance [injClass, injClass] trivClass =
      enhance [injClass] (enhance [injClass] trivClass) ∧
    callFn ((enhanceInstance Val.cls (enhanceInstance Val.cls baseNoHook enhA8) enhB8).get "m")
        [] =
      ([("enhB.m", [])] ++ ([("enhA.m", [])] ++ [("base.m", [])]), .ret (.plain (.num 1))) :=
  variadic_compose_spec trivClass injClass injClass Val.cls Val.cls baseNoHook enhA8 enhB8
    "m" (mkFnEv "base.m" (.ret (.plain (.num 1)))) (mkFnEv "enhA.m" (.ret (.plain (.num 21))))
    (mkFnEv "enhB.m" (.ret (.plain (.num 22)))) [] [("enhA.m", [])] [("enhB.m", [])]
    [("base.m", [])] (.num 21) (.num 22) (.ret (.plain (.num 1)))
    (by decide) rfl rfl rfl rfl rfl rfl rfl rfl rfl rfl rfl

/-! ### Frame lemmas for the store model -/

lemma getD_append_lt {α : Type} (xs ys : List α) (d : α) (r : Nat) (h : r < xs.length) :
    (xs ++ ys).getD r d = xs.getD r d := by
  induction xs generalizing r with
  | nil => exact absurd h (by simp)
  | cons a rest ih =>
    cases r with
    | zero => rfl
    | succ n => exact ih n (by simpa using h)

lemma getD_append_len {α : Type} (xs : List α) (c d : α) :
    (xs ++ [c]).getD xs.length d = c := by
  induction xs with
  | nil => rfl
  | cons a rest ih => exact ih

lemma set_append_len {α : Type} (xs : List α) (c y : α) :
    (xs ++ [c]).set xs.length y = xs ++ [y] := by
  induction xs with
  | nil => rfl
  | cons a rest ih => exact congrArg (List.cons a) ih

lemma injectFoldStore_spec {α : Type} [DecidableEq α] (e : List α) (base : List (List α)) :
    ∀ cur : List α,
      e.foldl (injectStepStore base.length) ⟨base ++ [cur]⟩ = ⟨base ++ [mergeList cur e]⟩ := by
  induction e with
  | nil => intro cur; rw [List.foldl_nil, mergeList_nil]
  | cons d rest ih =>
    intro cur
    rw [List.foldl_cons, mergeList_cons]
    have hread : readArr (⟨base ++ [cur]⟩ : ArrStore α) base.length = cur := by
      simp only [readArr]
      exact getD_append_len base cur []
    by_cases h : jsIndexOf cur d > -1
    · have hst : injectStepStore base.length ⟨base ++ [cur]⟩ d = ⟨base ++ [cur]⟩ := by
        simp [injectStepStore, hread, h]
      rw [hst, if_pos h]
      exact ih cur
    · have hst : injectStepStore base.length ⟨base ++ [cur]⟩ d = ⟨base ++ [cur ++ [d]]⟩ := by
        simp [injectStepStore, hread, h, pushArr, set_append_len]
      rw [hst, if_neg h]
      exact ih (cur ++ [d])

lemma getInjectDataStore_spec {α : Type} [DecidableEq α] (s : ArrStore α) (tR eR : Nat) :
    getInjectDataStore s tR eR =
      (⟨s.arrs ++ [mergeList (readArr s tR) (readArr s eR)]⟩, s.arrs.length) := by
  show ((readArr s eR).foldl (injectStepStore s.arrs.length) ⟨s.arrs ++ [readArr s tR]⟩,
      s.arrs.length) = _
  rw [injectFoldStore_spec (readArr s eR) s.arrs (readArr s tR)]

/-- C10: the merge never mutates its inputs.  Run on a store, it leaves the
arrays behind `targetRef` and `enhancementRef` exactly as they were, and
the combined list lives at a fresh reference (`s.arrs.length`, beyond every
existing one), so even a later `push` onto the combined list leaves the
originals untouched; likewise `getForTarget`/`getForEnhancement` only
allocate, leaving the resolved-values array unchanged. -/
theorem merge_no_mutation_spec {α : Type} [DecidableEq α] (s : ArrStore α) (tR eR : Nat)
    (sv : ArrStore JsV) (vR : Nat) (n : Nat) (enh2 : List α) (pos : α → Option Int)
    (ht : tR < s.arrs.length) (he : eR < s.arrs.length) :
    readArr (getInjectDataStore s tR eR).1 tR = readArr s tR ∧
    readArr (getInjectDataStore s tR eR).1 eR = readArr s eR ∧
    (getInjectDataStore s tR eR).2 = s.arrs.length ∧
    (∀ x r, r < s.arrs.length →
      readArr (pushArr (getInjectDataStore s tR eR).1 (getInjectDataStore s tR eR).2 x) r =
        readArr s r) ∧
    (∀ r, r < sv.arrs.length → readArr (getForTargetStore sv vR n).1 r = readArr sv r) ∧
    (∀ r, r < sv.arrs.length →
      readArr (getForEnhancementStore sv vR enh2 pos).1 r = readArr sv r) := by
  rw [getInjectDataStore_spec]
  refine ⟨?_, ?_, rfl, ?_, ?_, ?_⟩
  · simp only [readArr]
    exact getD_append_lt s.arrs _ [] tR ht
  · simp only [readArr]
    exact getD_append_lt s.arrs _ [] eR he
  · intro x r hr
    have hpush : pushArr
        (⟨s.arrs ++ [mergeList (readArr s tR) (readArr s eR)]⟩ : ArrStore α)
        s.arrs.length x =
        ⟨s.arrs ++ [mergeList (readArr s tR) (readArr s eR) ++ [x]]⟩ := by
      simp only [pushArr, readArr]
      rw [getD_append_len]
      exact congrArg ArrStore.mk (set_append_len s.arrs _ _)
    rw [hpush]
    simp only [readArr]
    exact getD_append_lt s.arrs _ [] r hr
  · intro r hr
    simp only [getForTargetStore, allocArr, readArr]
    exact getD_append_lt sv.arrs _ [] r hr
  · intro r hr
    simp only [getForEnhancementStore, allocArr, readArr]
    exact getD_append_lt sv.arrs _ [] r hr

/-- Witness for C10: store holding `[1, 2]` and `[2, 3]`; after the merge
both originals read back unchanged, the combined list sits at the fresh
reference `2`, and pushing `99` onto it still leaves reference `0`
unchanged. -/
theorem merge_no_mutation_spec_witness :
    readArr (getInjectDataStore (⟨[[1, 2], [2, 3]]⟩ : ArrStore Nat) 0 1).1 0 = [1, 2] ∧
    readArr (getInjectDataStore (⟨[[1, 2], [2, 3]]⟩ : ArrStore Nat) 0 1).1 1 = [2, 3] ∧
    (getInjectDataStore (⟨[[1, 2], [2, 3]]⟩ : ArrStore Nat) 0 1).2 = 2 ∧
    readArr (pushArr (getInjectDataStore (⟨[[1, 2], [2, 3]]⟩ : ArrStore Nat) 0 1).1
      (getInjectDataStore (⟨[[1, 2], [2, 3]]⟩ : ArrStore Nat) 0 1).2 99) 0 = [1, 2] := by
  have h := merge_no_mutation_spec (⟨[[1, 2], [2, 3]]⟩ : ArrStore Nat) 0 1
    (⟨[]⟩ : ArrStore JsV) 0 0 ([] : List Nat) (fun _ => none) (by decide) (by decide)
  refine ⟨?_, ?_, ?_, ?_⟩
  · rw [h.1]; rfl
  · rw [h.2.1]; rfl
  · rw [h.2.2.1]; rfl
  · rw [h.2.2.2.1 99 0 (by decide)]; rfl

end AureliaEnhance
